import Mathlib

/-!
Verification of the redaction engine in tool_server/tools/scrub.py.

The flat text is modelled as List Char; a Python slice text[a:b] becomes
pySlice.  The two detectors (the email regular expression and the spaCy
recognizer) are external collaborators: their outputs are parameters, a
list of match spans for the email pattern and a list of labelled spans for
the recognizer.  Everything downstream of detection is embedded from the
source of scrub.py.
-/

/-- Segment tuples (start, end, placeholder, raw) built by the detection
loops of scrub.py. The field stop models the Python name end, which is a
reserved word here. -/
structure Seg where
  start : Nat
  stop : Nat
  ph : List Char
  raw : List Char
deriving DecidableEq, Repr

/-- Python slice text[a:b] for 0 <= a, b (clamped, empty when b <= a). -/
def pySlice (t : List Char) (a b : Nat) : List Char :=
  (t.drop a).take (b - a)

/-- Placeholder string built by the Python f-string for the EMAIL category. -/
def emailPh (n : Nat) : List Char :=
  ("<EMAIL_" ++ toString n ++ ">").data

/-- Placeholder string built by the Python f-string for a recognizer label. -/
def entPh (lbl : String) (n : Nat) : List Char :=
  ("<" ++ lbl ++ "_" ++ toString n ++ ">").data

/-- ENTITY_LABELS from scrub.py. -/
def ENTITY_LABELS : List String := ["PER", "ORG", "LOC"]

/-- State of the email detection loop: counter, insertion-ordered
placeholder map and the segments list. -/
structure EmailSt where
  counter : Nat
  map : List (List Char × List Char)
  segs : List Seg
deriving DecidableEq, Repr

/-- One iteration of the email loop (scrub.py lines 74-79). -/
def email_step (text : List Char) (st : EmailSt) (m : Nat × Nat) : EmailSt :=
  let raw := pySlice text m.1 m.2
  match st.map.lookup raw with
  | some p => { st with segs := st.segs ++ [⟨m.1, m.2, p, raw⟩] }
  | none =>
    let c := st.counter + 1
    let p := emailPh c
    ⟨c, st.map ++ [(raw, p)], st.segs ++ [⟨m.1, m.2, p, raw⟩]⟩

/-- The email detection loop over the pattern matches. -/
def email_phase (text : List Char) (emails : List (Nat × Nat)) : EmailSt :=
  emails.foldl (email_step text) ⟨0, [], []⟩

/-- Per-label counters, label_counters in scrub.py. -/
structure LabelCounters where
  per : Nat
  org : Nat
  loc : Nat
deriving DecidableEq, Repr

/-- Read the counter of one label. -/
def getLabelCounter (lc : LabelCounters) (lbl : String) : Nat :=
  if lbl = "PER" then lc.per else if lbl = "ORG" then lc.org else lc.loc

/-- Increment the counter of one label. -/
def bumpLabel (lc : LabelCounters) (lbl : String) : LabelCounters :=
  if lbl = "PER" then { lc with per := lc.per + 1 }
  else if lbl = "ORG" then { lc with org := lc.org + 1 }
  else { lc with loc := lc.loc + 1 }

/-- State of the recognizer loop: label counters, placeholder map, segments. -/
structure EntSt where
  lc : LabelCounters
  map : List (List Char × List Char)
  segs : List Seg
deriving DecidableEq, Repr

/-- One iteration of the recognizer loop (scrub.py lines 83-90); entries
whose label is outside ENTITY_LABELS are skipped. -/
def ent_step (text : List Char) (st : EntSt) (e : Nat × Nat × String) : EntSt :=
  if e.2.2 ∈ ENTITY_LABELS then
    let raw := pySlice text e.1 e.2.1
    match st.map.lookup raw with
    | some p => { st with segs := st.segs ++ [⟨e.1, e.2.1, p, raw⟩] }
    | none =>
      let lc := bumpLabel st.lc e.2.2
      let p := entPh e.2.2 (getLabelCounter lc e.2.2)
      ⟨lc, st.map ++ [(raw, p)], st.segs ++ [⟨e.1, e.2.1, p, raw⟩]⟩
  else st

/-- The recognizer loop over the entity spans. -/
def ent_phase (text : List Char) (ents : List (Nat × Nat × String)) (st : EntSt) : EntSt :=
  ents.foldl (ent_step text) st

/-- The entity loop starts with fresh zero counters and the map and
segments accumulated by the email loop. -/
def initEnt (st : EmailSt) : EntSt := ⟨⟨0, 0, 0⟩, st.map, st.segs⟩

/-- Length of a segment as Python computes it, item[1] - item[0] over int. -/
def segLen (s : Seg) : Int := (s.stop : Int) - (s.start : Int)

/-- The sort relation of scrub.py line 92: key (start, -(end - start))
compared lexicographically ascending. -/
def segLe (a b : Seg) : Bool :=
  decide (a.start < b.start) ||
    (a.start == b.start && decide (segLen b ≤ segLen a))

/-- The sort relation as a proposition, for the sorting function. -/
def segLeP (a b : Seg) : Prop := segLe a b = true

instance : DecidableRel segLeP := fun a b => by
  unfold segLeP; infer_instance

/-- segments.sort of scrub.py line 92: Python list.sort is a stable
comparison sort on the key; a stable insertion sort realises it. -/
def sortSegments (l : List Seg) : List Seg := l.insertionSort segLeP

/-- The acceptance scan of scrub.py lines 99-107 restricted to which
segments survive: a segment is skipped when start < last_index, otherwise
accepted and last_index becomes its end. -/
def greedy : Nat → List Seg → List Seg
  | _, [] => []
  | last, s :: rest =>
    if s.start < last then greedy last rest else s :: greedy s.stop rest

/-- The Overlap Resolver: sort, then greedy acceptance from 0. -/
def resolveSpans (l : List Seg) : List Seg := greedy 0 (sortSegments l)

/-- The output loop of scrub.py lines 94-110 in one pass: cleaned parts,
last_index, ordered_replacements and the seen set, exactly as in the code. -/
def emit (text : List Char) :
    List Seg → Nat → List Char → List (List Char × List Char) →
    List (List Char) → List Char × List (List Char × List Char)
  | [], last, acc, reps, _ => (acc ++ text.drop last, reps)
  | s :: rest, last, acc, reps, seen =>
    if s.start < last then emit text rest last acc reps seen
    else
      emit text rest s.stop (acc ++ pySlice text last s.start ++ s.ph)
        (if s.raw ∈ seen then reps else reps ++ [(s.raw, s.ph)])
        (if s.raw ∈ seen then seen else seen ++ [s.raw])

/-- All segments produced by detection, emails first then entities. -/
def detectedSegments (text : List Char) (emails : List (Nat × Nat))
    (ents : List (Nat × Nat × String)) : List Seg :=
  (ent_phase text ents (initEnt (email_phase text emails))).segs

/-- The function _scrub_text of scrub.py, with the two detector outputs as
explicit parameters. -/
def scrub_text (text : List Char) (emails : List (Nat × Nat))
    (ents : List (Nat × Nat × String)) :
    List Char × List (List Char × List Char) :=
  emit text (sortSegments (detectedSegments text emails ents)) 0 [] [] []

/-- The accepted span sequence of the whole pipeline. -/
def acceptedSpans (text : List Char) (emails : List (Nat × Nat))
    (ents : List (Nat × Nat × String)) : List Seg :=
  resolveSpans (detectedSegments text emails ents)

lemma greedy_mem {l : List Seg} {last : Nat} {t : Seg}
    (h : t ∈ greedy last l) : t ∈ l := by
  induction l generalizing last with
  | nil => simp [greedy] at h
  | cons s rest ih =>
    by_cases hs : s.start < last
    · simp only [greedy, if_pos hs] at h
      exact List.mem_cons_of_mem _ (ih h)
    · simp only [greedy, if_neg hs, List.mem_cons] at h
      rcases h with h | h
      · exact h ▸ List.mem_cons_self _ _
      · exact List.mem_cons_of_mem _ (ih h)

lemma greedy_start_le {l : List Seg} (h : ∀ s ∈ l, s.start ≤ s.stop) :
    ∀ last, ∀ t ∈ greedy last l, last ≤ t.start := by
  induction l with
  | nil => intro last t ht; simp [greedy] at ht
  | cons s rest ih =>
    intro last t ht
    have hrest : ∀ x ∈ rest, x.start ≤ x.stop :=
      fun x hx => h x (List.mem_cons_of_mem _ hx)
    by_cases hs : s.start < last
    · simp only [greedy, if_pos hs] at ht
      exact ih hrest last t ht
    · simp only [greedy, if_neg hs, List.mem_cons] at ht
      push_neg at hs
      rcases ht with rfl | ht
      · exact hs
      · have := ih hrest s.stop t ht
        exact le_trans (le_trans hs (h s (List.mem_cons_self _ _))) this

lemma greedy_pairwise {l : List Seg} (h : ∀ s ∈ l, s.start ≤ s.stop) :
    ∀ last, List.Pairwise (fun a b => a.stop ≤ b.start) (greedy last l) := by
  induction l with
  | nil => intro last; simp [greedy]
  | cons s rest ih =>
    intro last
    have hrest : ∀ x ∈ rest, x.start ≤ x.stop :=
      fun x hx => h x (List.mem_cons_of_mem _ hx)
    by_cases hs : s.start < last
    · simpa only [greedy, if_pos hs] using ih hrest last
    · simp only [greedy, if_neg hs]
      exact List.pairwise_cons.2
        ⟨fun t ht => greedy_start_le hrest s.stop t ht, ih hrest s.stop⟩

lemma mem_sortSegments {l : List Seg} {t : Seg} :
    t ∈ sortSegments l ↔ t ∈ l :=
  (List.perm_insertionSort segLeP l).mem_iff

/-- C1: for every list of detected spans with start < end, the accepted
sequence produced by the Overlap Resolver is pairwise non-overlapping
(each end is at most the next start) and strictly ascending by start. -/
theorem overlap_resolver_sorted_nonoverlap (segs : List Seg)
    (h : ∀ s ∈ segs, s.start < s.stop) :
    List.Pairwise (fun a b => a.stop ≤ b.start) (resolveSpans segs) ∧
      List.Pairwise (fun a b => a.start < b.start) (resolveSpans segs) := by
  have hsorted : ∀ s ∈ sortSegments segs, s.start ≤ s.stop :=
    fun s hs => le_of_lt (h s (mem_sortSegments.1 hs))
  have h1 : List.Pairwise (fun a b => a.stop ≤ b.start) (resolveSpans segs) :=
    greedy_pairwise hsorted 0
  refine ⟨h1, ?_⟩
  refine h1.imp_of_mem ?_
  intro a b ha hb hab
  have ha' : a ∈ segs := mem_sortSegments.1 (greedy_mem ha)
  exact lt_of_lt_of_le (h a ha') hab

/-- Witness for C1 at a concrete overlapping, unordered span list. -/
theorem overlap_resolver_sorted_nonoverlap_witness :
    List.Pairwise (fun a b => a.stop ≤ b.start)
      (resolveSpans [⟨5, 9, [], []⟩, ⟨0, 7, [], []⟩, ⟨0, 3, [], []⟩]) ∧
      List.Pairwise (fun a b => a.start < b.start)
        (resolveSpans [⟨5, 9, [], []⟩, ⟨0, 7, [], []⟩, ⟨0, 3, [], []⟩]) :=
  overlap_resolver_sorted_nonoverlap _ (by decide)

lemma segLe_trans (a b c : Seg) (hab : segLe a b = true) (hbc : segLe b c = true) :
    segLe a c = true := by
  simp only [segLe, Bool.or_eq_true, decide_eq_true_eq, Bool.and_eq_true,
    beq_iff_eq] at hab hbc ⊢
  rcases hab with h1 | ⟨h1, h1'⟩ <;> rcases hbc with h2 | ⟨h2, h2'⟩
  · exact Or.inl (lt_trans h1 h2)
  · exact Or.inl (h2 ▸ h1)
  · exact Or.inl (h1 ▸ h2)
  · exact Or.inr ⟨h1.trans h2, le_trans h2' h1'⟩

lemma segLe_total (a b : Seg) : (segLe a b || segLe b a) = true := by
  simp only [segLe, Bool.or_eq_true, decide_eq_true_eq, Bool.and_eq_true,
    beq_iff_eq]
  rcases lt_trichotomy a.start b.start with h | h | h
  · exact Or.inl (Or.inl h)
  · rcases le_total (segLen b) (segLen a) with hl | hl
    · exact Or.inl (Or.inr ⟨h, hl⟩)
    · exact Or.inr (Or.inr ⟨h.symm, hl⟩)
  · exact Or.inr (Or.inl h)

instance : IsTotal Seg segLeP :=
  ⟨fun a b => by
    have := segLe_total a b
    simp only [Bool.or_eq_true] at this
    exact this⟩

instance : IsTrans Seg segLeP :=
  ⟨fun a b c => segLe_trans a b c⟩

lemma sorted_sortSegments (l : List Seg) :
    List.Pairwise (fun a b => segLe a b = true) (sortSegments l) :=
  List.sorted_insertionSort segLeP l

lemma greedy_shorter_not_mem {l : List Seg} {a b : Seg}
    (hval : ∀ x ∈ l, x.start ≤ x.stop)
    (hsorted : List.Pairwise (fun u v => segLe u v = true) l)
    (ha : a ∈ l) (hstart : a.start = b.start) (hlen : b.stop < a.stop) :
    ∀ last, b ∉ greedy last l := by
  induction l with
  | nil => intro last hb; simp [greedy] at hb
  | cons x rest ih =>
    intro last hb
    have hvr : ∀ y ∈ rest, y.start ≤ y.stop :=
      fun y hy => hval y (List.mem_cons_of_mem _ hy)
    have hsr := (List.pairwise_cons.1 hsorted).2
    have hxr := (List.pairwise_cons.1 hsorted).1
    by_cases hs : x.start < last
    · simp only [greedy, if_pos hs] at hb
      rcases List.mem_cons.1 ha with rfl | ha'
      · have := greedy_start_le hvr last b hb
        omega
      · exact ih hvr hsr ha' last hb
    · simp only [greedy, if_neg hs, List.mem_cons] at hb
      rcases hb with rfl | hb
      · rcases List.mem_cons.1 ha with rfl | ha'
        · omega
        · have hba := hxr a ha'
          simp only [segLe, Bool.or_eq_true, decide_eq_true_eq,
            Bool.and_eq_true, beq_iff_eq, segLen] at hba
          omega
      · rcases List.mem_cons.1 ha with rfl | ha'
        · have hb' : b ∈ rest := greedy_mem hb
          have h1 := greedy_start_le hvr a.stop b hb
          have h2 := hvr b hb'
          omega
        · exact ih hvr hsr ha' x.stop hb

/-- Counterexample to C4 as stated: the list holds two spans with the same
start 5, the longer one being (5, 20), yet only the earlier span (0, 10) is
accepted, so the longer same-start span is not the one accepted. -/
theorem same_start_longer_counterexample :
    resolveSpans
        [⟨0, 10, [], []⟩, ⟨5, 8, [], []⟩, ⟨5, 20, [], []⟩] =
      [⟨0, 10, [], []⟩] := by
  decide

/-- C4 amended: among two detected spans with the same start, the shorter
one is never accepted by the Overlap Resolver; hence whenever either of the
two is accepted, it is the longer one. -/
theorem same_start_shorter_never_accepted (segs : List Seg) (a b : Seg)
    (hval : ∀ s ∈ segs, s.start ≤ s.stop)
    (ha : a ∈ segs) (_hb : b ∈ segs)
    (hstart : a.start = b.start) (hlen : b.stop < a.stop) :
    b ∉ resolveSpans segs := by
  have hval' : ∀ x ∈ sortSegments segs, x.start ≤ x.stop :=
    fun x hx => hval x (mem_sortSegments.1 hx)
  exact greedy_shorter_not_mem hval' (sorted_sortSegments segs)
    (mem_sortSegments.2 ha) hstart hlen 0

/-- Witness for C4 amended at a concrete same-start pair. -/
theorem same_start_shorter_never_accepted_witness :
    (⟨5, 8, [], []⟩ : Seg) ∉
      resolveSpans [⟨0, 10, [], []⟩, ⟨5, 8, [], []⟩, ⟨5, 20, [], []⟩] :=
  same_start_shorter_never_accepted _ ⟨5, 20, [], []⟩ _ (by decide)
    (by decide) (by decide) rfl (by decide)

/-- Concatenation formula of the specification for the clean text:
text[0:s0], placeholder0, text[e0:s1], placeholder1, ..., tail. -/
def renderAccepted (text : List Char) : Nat → List Seg → List Char
  | last, [] => text.drop last
  | last, s :: rest =>
    pySlice text last s.start ++ s.ph ++ renderAccepted text s.stop rest

/-- ReplacementList of the specification: one pair per distinct raw text,
kept at the first accepted occurrence. -/
def firstOccur : List (List Char) → List Seg → List (List Char × List Char)
  | _, [] => []
  | seen, s :: rest =>
    if s.raw ∈ seen then firstOccur seen rest
    else (s.raw, s.ph) :: firstOccur (seen ++ [s.raw]) rest

lemma emit_eq (text : List Char) (l : List Seg) :
    ∀ last acc reps seen,
      emit text l last acc reps seen =
        (acc ++ renderAccepted text last (greedy last l),
          reps ++ firstOccur seen (greedy last l)) := by
  induction l with
  | nil =>
    intro last acc reps seen
    simp [emit, greedy, renderAccepted, firstOccur]
  | cons s rest ih =>
    intro last acc reps seen
    by_cases hs : s.start < last
    · simp only [emit, greedy, if_pos hs]
      exact ih last acc reps seen
    · simp only [emit, greedy, if_neg hs]
      rw [ih]
      by_cases hr : s.raw ∈ seen
      · simp [if_pos hr, renderAccepted, firstOccur, List.append_assoc]
      · simp [if_neg hr, renderAccepted, firstOccur, List.append_assoc]

/-- C3: the flat-text redactor returns exactly the concatenation
text[0:s0] ++ ph0 ++ text[e0:s1] ++ ph1 ++ ... ++ text[e_last:] over the
accepted spans, together with the replacement pairs deduplicated at first
accepted occurrence; with no accepted span the input comes back unchanged. -/
theorem scrub_text_renders_accepted (text : List Char)
    (emails : List (Nat × Nat)) (ents : List (Nat × Nat × String)) :
    scrub_text text emails ents =
        (renderAccepted text 0 (acceptedSpans text emails ents),
          firstOccur [] (acceptedSpans text emails ents)) ∧
      (acceptedSpans text emails ents = [] →
        (scrub_text text emails ents).1 = text) := by
  have h : scrub_text text emails ents =
      (renderAccepted text 0 (acceptedSpans text emails ents),
        firstOccur [] (acceptedSpans text emails ents)) := by
    unfold scrub_text acceptedSpans resolveSpans
    rw [emit_eq]
    simp
  refine ⟨h, fun hnil => ?_⟩
  rw [h, hnil]
  simp [renderAccepted]

/-- Witness for C3: with no detected span the text comes back unchanged. -/
theorem scrub_text_renders_accepted_witness :
    (scrub_text "Hallo".data [] []).1 = "Hallo".data :=
  (scrub_text_renders_accepted "Hallo".data [] []).2 (by decide)

lemma lookup_append_some {m m2 : List (List Char × List Char)}
    {k v : List Char} (h : m.lookup k = some v) :
    (m ++ m2).lookup k = some v := by
  induction m with
  | nil => simp [List.lookup] at h
  | cons kv rest ih =>
    rcases kv with ⟨a, b⟩
    by_cases hk : k = a
    · simp [List.lookup, hk] at h ⊢
      exact h
    · have hk' : (k == a) = false := beq_eq_false_iff_ne.2 hk
      simp only [List.lookup, List.cons_append, hk'] at h ⊢
      exact ih h

lemma lookup_append_none {m m2 : List (List Char × List Char)}
    {k : List Char} (h : m.lookup k = none) :
    (m ++ m2).lookup k = m2.lookup k := by
  induction m with
  | nil => simp
  | cons kv rest ih =>
    rcases kv with ⟨a, b⟩
    by_cases hk : k = a
    · simp [List.lookup, hk] at h
    · have hk' : (k == a) = false := beq_eq_false_iff_ne.2 hk
      simp only [List.lookup, List.cons_append, hk'] at h ⊢
      exact ih h

/-- Every recorded segment carries exactly the placeholder the map binds
its raw text to. -/
def MapConsistent (map : List (List Char × List Char)) (segs : List Seg) : Prop :=
  ∀ seg ∈ segs, map.lookup seg.raw = some seg.ph

lemma email_step_consistent {text : List Char} {st : EmailSt}
    (h : MapConsistent st.map st.segs) (m : Nat × Nat) :
    MapConsistent (email_step text st m).map (email_step text st m).segs := by
  intro seg hseg
  cases hl : st.map.lookup (pySlice text m.1 m.2) with
  | some p =>
    simp only [email_step, hl] at hseg ⊢
    simp only [List.mem_append, List.mem_singleton] at hseg
    rcases hseg with hseg | rfl
    · exact h seg hseg
    · exact hl
  | none =>
    simp only [email_step, hl] at hseg ⊢
    simp only [List.mem_append, List.mem_singleton] at hseg
    rcases hseg with hseg | rfl
    · exact lookup_append_some (h seg hseg)
    · simp [lookup_append_none hl, List.lookup]

lemma ent_step_consistent {text : List Char} {st : EntSt}
    (h : MapConsistent st.map st.segs) (e : Nat × Nat × String) :
    MapConsistent (ent_step text st e).map (ent_step text st e).segs := by
  by_cases hlbl : e.2.2 ∈ ENTITY_LABELS
  · intro seg hseg
    cases hl : st.map.lookup (pySlice text e.1 e.2.1) with
    | some p =>
      simp only [ent_step, if_pos hlbl, hl] at hseg ⊢
      simp only [List.mem_append, List.mem_singleton] at hseg
      rcases hseg with hseg | rfl
      · exact h seg hseg
      · exact hl
    | none =>
      simp only [ent_step, if_pos hlbl, hl] at hseg ⊢
      simp only [List.mem_append, List.mem_singleton] at hseg
      rcases hseg with hseg | rfl
      · exact lookup_append_some (h seg hseg)
      · simp [lookup_append_none hl, List.lookup]
  · simpa only [ent_step, if_neg hlbl] using h

lemma email_phase_consistent (text : List Char) (emails : List (Nat × Nat)) :
    MapConsistent (email_phase text emails).map (email_phase text emails).segs := by
  unfold email_phase
  have h : ∀ (l : List (Nat × Nat)) (st : EmailSt),
      MapConsistent st.map st.segs →
      MapConsistent (l.foldl (email_step text) st).map
        (l.foldl (email_step text) st).segs := by
    intro l
    induction l with
    | nil => intro st hst; simpa using hst
    | cons m rest ih =>
      intro st hst
      exact ih _ (email_step_consistent hst m)
  exact h emails ⟨0, [], []⟩ (by intro seg hseg; simp at hseg)

lemma ent_phase_consistent (text : List Char) (ents : List (Nat × Nat × String))
    (st : EntSt) (hst : MapConsistent st.map st.segs) :
    MapConsistent (ent_phase text ents st).map (ent_phase text ents st).segs := by
  unfold ent_phase
  induction ents generalizing st with
  | nil => simpa using hst
  | cons e rest ih => exact ih _ (ent_step_consistent hst e)

lemma detectedSegments_consistent (text : List Char) (emails : List (Nat × Nat))
    (ents : List (Nat × Nat × String)) :
    MapConsistent (ent_phase text ents (initEnt (email_phase text emails))).map
      (detectedSegments text emails ents) :=
  ent_phase_consistent text ents _ (email_phase_consistent text emails)

/-- C5: within one invocation, any two accepted spans whose raw texts are
the same string carry the identical placeholder token. -/
theorem placeholder_stable (text : List Char) (emails : List (Nat × Nat))
    (ents : List (Nat × Nat × String)) (s1 s2 : Seg)
    (h1 : s1 ∈ acceptedSpans text emails ents)
    (h2 : s2 ∈ acceptedSpans text emails ents)
    (hraw : s1.raw = s2.raw) : s1.ph = s2.ph := by
  have hc := detectedSegments_consistent text emails ents
  have m1 : s1 ∈ detectedSegments text emails ents :=
    mem_sortSegments.1 (greedy_mem h1)
  have m2 : s2 ∈ detectedSegments text emails ents :=
    mem_sortSegments.1 (greedy_mem h2)
  have e1 := hc s1 m1
  have e2 := hc s2 m2
  rw [hraw] at e1
  rw [e1] at e2
  exact Option.some_injective _ e2

/-- Witness for C5: the same address accepted twice gets the same token. -/
theorem placeholder_stable_witness :
    (⟨0, 6, "<EMAIL_1>".data, "a@b.cc".data⟩ : Seg).ph =
      (⟨7, 13, "<EMAIL_1>".data, "a@b.cc".data⟩ : Seg).ph :=
  placeholder_stable "a@b.cc a@b.cc".data [(0, 6), (7, 13)] []
    ⟨0, 6, "<EMAIL_1>".data, "a@b.cc".data⟩
    ⟨7, 13, "<EMAIL_1>".data, "a@b.cc".data⟩
    (by decide) (by decide) rfl

lemma email_step_values {text : List Char} {st : EmailSt} (m : Nat × Nat)
    (h : st.map.map Prod.snd =
      (List.range st.counter).map fun i => emailPh (i + 1)) :
    (email_step text st m).map.map Prod.snd =
      (List.range (email_step text st m).counter).map fun i => emailPh (i + 1) := by
  cases hl : st.map.lookup (pySlice text m.1 m.2) with
  | some p => simpa only [email_step, hl] using h
  | none =>
    simp only [email_step, hl, List.map_append, List.range_succ, h]
    simp

/-- The email map binds its keys, in insertion order, to exactly the
placeholders EMAIL_1 .. EMAIL_counter. -/
lemma email_phase_values (text : List Char) (emails : List (Nat × Nat)) :
    (email_phase text emails).map.map Prod.snd =
      (List.range (email_phase text emails).counter).map fun i => emailPh (i + 1) := by
  unfold email_phase
  have h : ∀ (l : List (Nat × Nat)) (st : EmailSt),
      st.map.map Prod.snd = (List.range st.counter).map (fun i => emailPh (i + 1)) →
      (l.foldl (email_step text) st).map.map Prod.snd =
        (List.range (l.foldl (email_step text) st).counter).map
          fun i => emailPh (i + 1) := by
    intro l
    induction l with
    | nil => intro st hst; simpa using hst
    | cons m rest ih => intro st hst; exact ih _ (email_step_values m hst)
  exact h emails ⟨0, [], []⟩ (by simp)

lemma ent_phase_nil (text : List Char) (st : EntSt) :
    ent_phase text [] st = st := rfl

lemma ent_phase_cons (text : List Char) (e : Nat × Nat × String)
    (rest : List (Nat × Nat × String)) (st : EntSt) :
    ent_phase text (e :: rest) st = ent_phase text rest (ent_step text st e) := rfl

lemma ent_step_map_extends (text : List Char) (st : EntSt) (e : Nat × Nat × String) :
    ∃ ext, (ent_step text st e).map = st.map ++ ext := by
  by_cases hlbl : e.2.2 ∈ ENTITY_LABELS
  · cases hl : st.map.lookup (pySlice text e.1 e.2.1) with
    | some p => exact ⟨[], by simp [ent_step, hlbl, hl]⟩
    | none =>
      exact ⟨[(pySlice text e.1 e.2.1,
        entPh e.2.2 (getLabelCounter (bumpLabel st.lc e.2.2) e.2.2))],
        by simp [ent_step, hlbl, hl]⟩
  · exact ⟨[], by simp [ent_step, hlbl]⟩

lemma ent_phase_map_extends (text : List Char) (ents : List (Nat × Nat × String)) :
    ∀ st : EntSt, ∃ ext, (ent_phase text ents st).map = st.map ++ ext := by
  induction ents with
  | nil => intro st; exact ⟨[], by simp [ent_phase_nil]⟩
  | cons e rest ih =>
    intro st
    obtain ⟨e1, he1⟩ := ent_step_map_extends text st e
    obtain ⟨e2, he2⟩ := ih (ent_step text st e)
    exact ⟨e1 ++ e2, by rw [ent_phase_cons, he2, he1, List.append_assoc]⟩

lemma ent_phase_lookup_mono {text : List Char} {ents : List (Nat × Nat × String)}
    {st : EntSt} {k v : List Char} (h : st.map.lookup k = some v) :
    (ent_phase text ents st).map.lookup k = some v := by
  obtain ⟨ext, hext⟩ := ent_phase_map_extends text ents st
  rw [hext]
  exact lookup_append_some h

lemma ent_phase_segs_indep (text : List Char) :
    ∀ (ents : List (Nat × Nat × String)) (lc : LabelCounters)
      (m : List (List Char × List Char)) (segs segs' : List Seg),
      (ent_phase text ents ⟨lc, m, segs⟩).lc =
          (ent_phase text ents ⟨lc, m, segs'⟩).lc ∧
        (ent_phase text ents ⟨lc, m, segs⟩).map =
          (ent_phase text ents ⟨lc, m, segs'⟩).map := by
  intro ents
  induction ents with
  | nil => intro lc m segs segs'; simp [ent_phase_nil]
  | cons e rest ih =>
    intro lc m segs segs'
    rw [ent_phase_cons, ent_phase_cons]
    by_cases hlbl : e.2.2 ∈ ENTITY_LABELS
    · cases hl : List.lookup (pySlice text e.1 e.2.1) m with
      | some p =>
        simp only [ent_step, hlbl, if_pos hlbl, hl]
        exact ih lc m _ _
      | none =>
        simp only [ent_step, hlbl, if_pos hlbl, hl]
        exact ih _ _ _ _
    · simp only [ent_step, if_neg hlbl]
      exact ih lc m segs segs'

/-- Tag identifying the placeholders of one recognizer label. -/
def labelTag (lbl : String) : List Char := ("<" ++ lbl ++ "_").data

/-- Boolean test whether a placeholder value carries the tag of a label. -/
def phHasTag (lbl : String) (v : List Char) : Bool := (labelTag lbl).isPrefixOf v

lemma phHasTag_self (lbl : String) (n : Nat) :
    phHasTag lbl (entPh lbl n) = true := by
  simp [phHasTag, labelTag, entPh, String.data_append, List.isPrefixOf_iff_prefix]


lemma phHasTag_of_ne {lbl lbl' : String} (h1 : lbl ∈ ENTITY_LABELS)
    (h2 : lbl' ∈ ENTITY_LABELS) (hne : lbl ≠ lbl') (n : Nat) :
    phHasTag lbl (entPh lbl' n) = false := by
  simp only [ENTITY_LABELS, List.mem_cons, List.not_mem_nil, or_false] at h1 h2
  rcases h1 with rfl | rfl | rfl <;> rcases h2 with rfl | rfl | rfl <;>
    first
      | exact absurd rfl hne
      | simp [phHasTag, labelTag, entPh, String.data_append, List.isPrefixOf]

lemma getLabelCounter_bump_self (lc : LabelCounters) (lbl : String) :
    getLabelCounter (bumpLabel lc lbl) lbl = getLabelCounter lc lbl + 1 := by
  unfold getLabelCounter bumpLabel
  split_ifs <;> simp

lemma getLabelCounter_bump_ne {lbl lbl' : String} (h1 : lbl ∈ ENTITY_LABELS)
    (h2 : lbl' ∈ ENTITY_LABELS) (hne : lbl ≠ lbl') (lc : LabelCounters) :
    getLabelCounter (bumpLabel lc lbl') lbl = getLabelCounter lc lbl := by
  simp only [ENTITY_LABELS, List.mem_cons, List.not_mem_nil, or_false] at h1 h2
  rcases h1 with rfl | rfl | rfl <;> rcases h2 with rfl | rfl | rfl <;>
    first
      | exact absurd rfl hne
      | simp [getLabelCounter, bumpLabel]

/-- Per-label density of placeholder registration: from any starting state,
the values the recognizer loop appends to the map that carry the tag of a
label are exactly that label's placeholders numbered consecutively from one
past the starting counter up to the final counter. -/
lemma ent_phase_label_density (text : List Char) (lbl : String)
    (hlbl : lbl ∈ ENTITY_LABELS) :
    ∀ (ents : List (Nat × Nat × String)) (st : EntSt),
      getLabelCounter st.lc lbl ≤
          getLabelCounter (ent_phase text ents st).lc lbl ∧
        (((ent_phase text ents st).map.drop st.map.length).map
              Prod.snd).filter (phHasTag lbl) =
          (List.range' (getLabelCounter st.lc lbl + 1)
              (getLabelCounter (ent_phase text ents st).lc lbl -
                getLabelCounter st.lc lbl)).map (entPh lbl) := by
  intro ents
  induction ents with
  | nil =>
    intro st
    simp [ent_phase_nil]
  | cons e rest ih =>
    intro st
    rw [ent_phase_cons]
    by_cases hl2 : e.2.2 ∈ ENTITY_LABELS
    · cases hlu : List.lookup (pySlice text e.1 e.2.1) st.map with
      | some p =>
        have hstep : ent_step text st e =
            (⟨st.lc, st.map,
              st.segs ++ [⟨e.1, e.2.1, p, pySlice text e.1 e.2.1⟩]⟩ : EntSt) := by
          simp [ent_step, hl2, hlu]
        rw [hstep]
        obtain ⟨hlc, hmap⟩ := ent_phase_segs_indep text rest st.lc st.map
          (st.segs ++ [⟨e.1, e.2.1, p, pySlice text e.1 e.2.1⟩]) st.segs
        rw [hlc, hmap]
        exact ih st
      | none =>
        have hstep : ent_step text st e =
            (⟨bumpLabel st.lc e.2.2,
              st.map ++ [(pySlice text e.1 e.2.1,
                entPh e.2.2 (getLabelCounter (bumpLabel st.lc e.2.2) e.2.2))],
              st.segs ++ [⟨e.1, e.2.1,
                entPh e.2.2 (getLabelCounter (bumpLabel st.lc e.2.2) e.2.2),
                pySlice text e.1 e.2.1⟩]⟩ : EntSt) := by
          simp [ent_step, hl2, hlu]
        rw [hstep]
        set v := entPh e.2.2 (getLabelCounter (bumpLabel st.lc e.2.2) e.2.2) with hv
        set st2 : EntSt :=
          ⟨bumpLabel st.lc e.2.2,
            st.map ++ [(pySlice text e.1 e.2.1, v)],
            st.segs ++ [⟨e.1, e.2.1, v, pySlice text e.1 e.2.1⟩]⟩ with hst2
        obtain ⟨ih1, ih2⟩ := ih st2
        obtain ⟨ext, hext⟩ := ent_phase_map_extends text rest st2
        have hm2 : st2.map = st.map ++ [(pySlice text e.1 e.2.1, v)] := by
          rw [hst2]
        have hlc2 : st2.lc = bumpLabel st.lc e.2.2 := by rw [hst2]
        rw [hext] at ih2 ⊢
        rw [List.drop_left] at ih2
        have hdrop : (st2.map ++ ext).drop st.map.length =
            (pySlice text e.1 e.2.1, v) :: ext := by
          rw [hm2, List.append_assoc, List.drop_left]
          simp
        rw [hdrop]
        simp only [List.map_cons, List.filter_cons]
        by_cases heq : lbl = e.2.2
        · have hb : getLabelCounter (bumpLabel st.lc e.2.2) lbl =
              getLabelCounter st.lc lbl + 1 := by
            rw [← heq]
            exact getLabelCounter_bump_self st.lc lbl
          have hc2 : getLabelCounter st2.lc lbl = getLabelCounter st.lc lbl + 1 := by
            rw [hlc2]
            exact hb
          rw [hc2] at ih1 ih2
          have hveq : v = entPh lbl (getLabelCounter st.lc lbl + 1) := by
            rw [hv, ← heq, getLabelCounter_bump_self]
          have htag : phHasTag lbl v = true := by
            rw [hveq]
            exact phHasTag_self lbl _
          rw [htag]
          refine ⟨by omega, ?_⟩
          simp only [if_true]
          rw [ih2]
          have hn : getLabelCounter (ent_phase text rest st2).lc lbl -
              getLabelCounter st.lc lbl =
              (getLabelCounter (ent_phase text rest st2).lc lbl -
                (getLabelCounter st.lc lbl + 1)) + 1 := by omega
          rw [hn, List.range'_succ]
          simp only [List.map_cons]
          rw [hveq]
        · have hb := getLabelCounter_bump_ne hlbl hl2 heq st.lc
          have hc2 : getLabelCounter st2.lc lbl = getLabelCounter st.lc lbl := by
            rw [hlc2, hb]
          rw [hc2] at ih1 ih2
          have htag : phHasTag lbl v = false := by
            rw [hv]
            exact phHasTag_of_ne hlbl hl2 heq _
          rw [htag]
          refine ⟨ih1, ?_⟩
          simp only [Bool.false_eq_true, if_false]
          exact ih2
    · have hstep : ent_step text st e = st := by simp [ent_step, hl2]
      rw [hstep]
      exact ih st

lemma getLabelCounter_zero (lbl : String) :
    getLabelCounter ⟨0, 0, 0⟩ lbl = 0 := by
  unfold getLabelCounter
  split_ifs <;> rfl

/-- Counterexample to C2 as stated, at a detector-realizable input: on the
text Herr a@b.cc ok d@e.ff the in-repo EMAIL_PATTERN matches exactly
(5,11) and (15,21), and the recognizer (a black box) reports the span
(0,11) labelled PER. The first address sits inside that longer recognized
span starting earlier, so its every span is rejected, yet it consumed
counter value one at detection time; the output and the ReplacementList
use EMAIL_2 and never EMAIL_1, so the placeholders that appear are not the
gap-free values 1..N. -/
theorem placeholder_numbering_counterexample :
    (scrub_text "Herr a@b.cc ok d@e.ff".data [(5, 11), (15, 21)]
        [(0, 11, "PER")]).2.map Prod.snd =
        ["<PER_1>".data, "<EMAIL_2>".data] ∧
      (scrub_text "Herr a@b.cc ok d@e.ff".data [(5, 11), (15, 21)]
          [(0, 11, "PER")]).1 = "<PER_1> ok <EMAIL_2>".data := by
  decide

/-- C2 amended: numbering is dense per category over the distinct raw texts
registered at detection time, in registration order: the email map values
are exactly EMAIL_1..EMAIL_c in order, the recognizer loop only appends to
the map, and for each label the appended values carrying that label are
exactly LABEL_1..LABEL_k in order. Registration happens before overlap
resolution, so a raw text whose spans are all rejected still consumes its
counter value and the output may skip values. -/
theorem placeholder_numbering_registration (text : List Char)
    (emails : List (Nat × Nat)) (ents : List (Nat × Nat × String)) :
    (email_phase text emails).map.map Prod.snd =
        (List.range (email_phase text emails).counter).map
          (fun i => emailPh (i + 1)) ∧
      (∃ ext, (ent_phase text ents (initEnt (email_phase text emails))).map =
        (email_phase text emails).map ++ ext) ∧
      ∀ lbl ∈ ENTITY_LABELS,
        ((((ent_phase text ents (initEnt (email_phase text emails))).map.drop
              (email_phase text emails).map.length).map Prod.snd).filter
            (phHasTag lbl)) =
          (List.range' 1
              (getLabelCounter
                (ent_phase text ents (initEnt (email_phase text emails))).lc
                lbl)).map (entPh lbl) := by
  refine ⟨email_phase_values text emails, ?_, ?_⟩
  · exact ent_phase_map_extends text ents (initEnt (email_phase text emails))
  · intro lbl hlbl
    have h := (ent_phase_label_density text lbl hlbl ents
      (initEnt (email_phase text emails))).2
    have hz : getLabelCounter (initEnt (email_phase text emails)).lc lbl = 0 :=
      getLabelCounter_zero lbl
    rw [hz] at h
    simpa using h

/-- Witness for C2 amended at the counterexample input, label PER. -/
theorem placeholder_numbering_registration_witness :
    ((((ent_phase "Herr a@b.cc ok d@e.ff".data [(0, 11, "PER")]
          (initEnt (email_phase "Herr a@b.cc ok d@e.ff".data
            [(5, 11), (15, 21)]))).map.drop
          (email_phase "Herr a@b.cc ok d@e.ff".data
            [(5, 11), (15, 21)]).map.length).map
          Prod.snd).filter (phHasTag "PER")) =
      (List.range' 1
          (getLabelCounter
            (ent_phase "Herr a@b.cc ok d@e.ff".data [(0, 11, "PER")]
              (initEnt (email_phase "Herr a@b.cc ok d@e.ff".data
                [(5, 11), (15, 21)]))).lc
            "PER")).map (entPh "PER") :=
  (placeholder_numbering_registration "Herr a@b.cc ok d@e.ff".data
    [(5, 11), (15, 21)] [(0, 11, "PER")]).2.2 "PER" (by decide)

lemma lookup_mem_values {m : List (List Char × List Char)} {k v : List Char}
    (h : m.lookup k = some v) : v ∈ m.map Prod.snd := by
  induction m with
  | nil => simp [List.lookup] at h
  | cons kv rest ih =>
    rcases kv with ⟨a, b⟩
    by_cases hk : k = a
    · simp only [List.lookup, hk, beq_self_eq_true, Option.some.injEq] at h
      simp [h]
    · have hk' : (k == a) = false := beq_eq_false_iff_ne.2 hk
      simp only [List.lookup, hk'] at h
      simp [ih h]

lemma ent_phase_skip_known (text : List Char) (m0 : List (List Char × List Char)) :
    ∀ (ents : List (Nat × Nat × String)) (st : EntSt),
      (∀ k v, m0.lookup k = some v → st.map.lookup k = some v) →
      (ent_phase text ents st).lc =
          (ent_phase text
            (ents.filter fun e =>
              (m0.lookup (pySlice text e.1 e.2.1)).isNone) st).lc ∧
        (ent_phase text ents st).map =
          (ent_phase text
            (ents.filter fun e =>
              (m0.lookup (pySlice text e.1 e.2.1)).isNone) st).map := by
  intro ents
  induction ents with
  | nil => intro st _; exact ⟨rfl, rfl⟩
  | cons e rest ih =>
    intro st hinv
    by_cases hn : (m0.lookup (pySlice text e.1 e.2.1)).isNone = true
    · rw [List.filter_cons_of_pos (by simpa using hn), ent_phase_cons,
        ent_phase_cons]
      refine ih (ent_step text st e) ?_
      intro k v hkv
      obtain ⟨ext, hext⟩ := ent_step_map_extends text st e
      rw [hext]
      exact lookup_append_some (hinv k v hkv)
    · rw [List.filter_cons_of_neg (by simpa using hn), ent_phase_cons]
      cases ho : m0.lookup (pySlice text e.1 e.2.1) with
      | none => rw [ho] at hn; simp at hn
      | some v =>
        have hst : st.map.lookup (pySlice text e.1 e.2.1) = some v :=
          hinv _ _ ho
        by_cases hl2 : e.2.2 ∈ ENTITY_LABELS
        · have hstep : ent_step text st e =
              (⟨st.lc, st.map,
                st.segs ++ [⟨e.1, e.2.1, v, pySlice text e.1 e.2.1⟩]⟩ : EntSt) := by
            simp [ent_step, hl2, hst]
          rw [hstep]
          obtain ⟨hlc, hmap⟩ := ent_phase_segs_indep text rest st.lc st.map
            (st.segs ++ [⟨e.1, e.2.1, v, pySlice text e.1 e.2.1⟩]) st.segs
          rw [hlc, hmap]
          exact ih st hinv
        · have hstep : ent_step text st e = st := by simp [ent_step, hl2]
          rw [hstep]
          exact ih st hinv

/-- C9: the placeholder map is keyed by the raw string alone and email
matches are registered first, so any accepted span whose raw text was
registered by the email loop carries that email placeholder (which has the
form EMAIL_n with n at most the email counter), including spans the
recognizer labelled; moreover the label counters are exactly what they
would be if every entity whose raw text sits in the email map were removed,
so no entity counter value is consumed for such a raw text. -/
theorem email_registration_priority (text : List Char)
    (emails : List (Nat × Nat)) (ents : List (Nat × Nat × String)) :
    (∀ seg ∈ acceptedSpans text emails ents, ∀ p,
        (email_phase text emails).map.lookup seg.raw = some p → seg.ph = p) ∧
      (∀ k p, (email_phase text emails).map.lookup k = some p →
        ∃ n, 1 ≤ n ∧ n ≤ (email_phase text emails).counter ∧ p = emailPh n) ∧
      (ent_phase text ents (initEnt (email_phase text emails))).lc =
        (ent_phase text
          (ents.filter fun e =>
            ((email_phase text emails).map.lookup
              (pySlice text e.1 e.2.1)).isNone)
          (initEnt (email_phase text emails))).lc := by
  refine ⟨?_, ?_, ?_⟩
  · intro seg hseg p hp
    have hdet : seg ∈ detectedSegments text emails ents :=
      mem_sortSegments.1 (greedy_mem hseg)
    have hcons := detectedSegments_consistent text emails ents seg hdet
    have hmono : (ent_phase text ents
        (initEnt (email_phase text emails))).map.lookup seg.raw = some p :=
      ent_phase_lookup_mono hp
    rw [hcons] at hmono
    exact Option.some_injective _ hmono
  · intro k p hp
    have hv := lookup_mem_values hp
    rw [email_phase_values text emails] at hv
    simp only [List.mem_map, List.mem_range] at hv
    obtain ⟨i, hi, rfl⟩ := hv
    exact ⟨i + 1, by omega, by omega, rfl⟩
  · exact (ent_phase_skip_known text (email_phase text emails).map ents
      (initEnt (email_phase text emails)) (fun k v h => h)).1

/-- Witness for C9: a span the recognizer labelled PER whose raw text is an
already registered address keeps the EMAIL placeholder. -/
theorem email_registration_priority_witness :
    (⟨0, 6, "<EMAIL_1>".data, "a@b.cc".data⟩ : Seg).ph = "<EMAIL_1>".data :=
  (email_registration_priority "a@b.cc".data [(0, 6)] [(0, 6, "PER")]).1
    ⟨0, 6, "<EMAIL_1>".data, "a@b.cc".data⟩ (by decide) "<EMAIL_1>".data
    (by decide)

/-- A formatted run inside a paragraph: a text fragment plus formatting
metadata, opaque to the core and modelled by a number. -/
structure Run where
  text : List Char
  fmt : Nat
deriving DecidableEq, Repr

/-- A paragraph is an ordered sequence of runs. -/
structure Paragraph where
  runs : List Run
deriving DecidableEq, Repr

/-- Plain text of a paragraph: the concatenation of its run texts. -/
def Paragraph.text (p : Paragraph) : List Char :=
  (p.runs.map Run.text).flatten

mutual

/-- A table is an ordered sequence of rows. -/
inductive Table where
  | mk (rows : List Row) : Table

/-- A row is an ordered sequence of cells. -/
inductive Row where
  | mk (cells : List Cell) : Row

/-- A cell holds its own paragraphs and nested tables. -/
inductive Cell where
  | mk (paras : List Paragraph) (tables : List Table) : Cell

end

/-- A document: body paragraphs then top-level tables. -/
structure Document where
  paragraphs : List Paragraph
  tables : List Table

/-- The per-paragraph collection step of scrub.py (if paragraph.text:
chunks.append(paragraph.text)) over one paragraph list. -/
def paragraphChunks (ps : List Paragraph) : List (List Char) :=
  (ps.map Paragraph.text).filter fun t => !t.isEmpty

mutual

/-- The function _collect_table_text of scrub.py. -/
def collect_table_text : Table → List (List Char)
  | .mk rows => collect_rows_text rows

def collect_rows_text : List Row → List (List Char)
  | [] => []
  | r :: rs => collect_row_text r ++ collect_rows_text rs

def collect_row_text : Row → List (List Char)
  | .mk cells => collect_cells_text cells

def collect_cells_text : List Cell → List (List Char)
  | [] => []
  | c :: cs => collect_cell_text c ++ collect_cells_text cs

def collect_cell_text : Cell → List (List Char)
  | .mk ps ts => paragraphChunks ps ++ collect_tables_text ts

def collect_tables_text : List Table → List (List Char)
  | [] => []
  | t :: ts => collect_table_text t ++ collect_tables_text ts

end

/-- The function _collect_document_text of scrub.py: nonempty body
paragraph texts, then every table chunk, joined with newlines. -/
def collect_document_text (doc : Document) : List Char :=
  List.intercalate ['\n']
    (paragraphChunks doc.paragraphs ++ collect_tables_text doc.tables)

mutual

/-- Every paragraph of a table, in document order. -/
def tableParagraphs : Table → List Paragraph
  | .mk rows => rowsParagraphs rows

def rowsParagraphs : List Row → List Paragraph
  | [] => []
  | r :: rs => rowParagraphs r ++ rowsParagraphs rs

def rowParagraphs : Row → List Paragraph
  | .mk cells => cellsParagraphs cells

def cellsParagraphs : List Cell → List Paragraph
  | [] => []
  | c :: cs => cellParagraphs c ++ cellsParagraphs cs

def cellParagraphs : Cell → List Paragraph
  | .mk ps ts => ps ++ tablesParagraphs ts

def tablesParagraphs : List Table → List Paragraph
  | [] => []
  | t :: ts => tableParagraphs t ++ tablesParagraphs ts

end

/-- Every paragraph of a document, body first, then tables depth first,
row-major, cell by cell, cell paragraphs before nested tables. -/
def docParagraphs (doc : Document) : List Paragraph :=
  doc.paragraphs ++ tablesParagraphs doc.tables

/-- Modelled from the spec claim wording for comparison: the flattened text
as the newline join of each paragraph text, one paragraph per line, every
paragraph contributing exactly one line. -/
def collect_document_text_claim (doc : Document) : List Char :=
  List.intercalate ['\n'] ((docParagraphs doc).map Paragraph.text)

mutual

theorem collect_table_text_eq : ∀ t : Table,
    collect_table_text t =
      ((tableParagraphs t).map Paragraph.text).filter fun s => !s.isEmpty
  | .mk rows => by
    simp only [collect_table_text, tableParagraphs]
    exact collect_rows_text_eq rows

theorem collect_rows_text_eq : ∀ rs : List Row,
    collect_rows_text rs =
      ((rowsParagraphs rs).map Paragraph.text).filter fun s => !s.isEmpty
  | [] => rfl
  | r :: rs => by
    simp only [collect_rows_text, rowsParagraphs, List.map_append,
      List.filter_append]
    rw [collect_row_text_eq r, collect_rows_text_eq rs]

theorem collect_row_text_eq : ∀ r : Row,
    collect_row_text r =
      ((rowParagraphs r).map Paragraph.text).filter fun s => !s.isEmpty
  | .mk cells => by
    simp only [collect_row_text, rowParagraphs]
    exact collect_cells_text_eq cells

theorem collect_cells_text_eq : ∀ cs : List Cell,
    collect_cells_text cs =
      ((cellsParagraphs cs).map Paragraph.text).filter fun s => !s.isEmpty
  | [] => rfl
  | c :: cs => by
    simp only [collect_cells_text, cellsParagraphs, List.map_append,
      List.filter_append]
    rw [collect_cell_text_eq c, collect_cells_text_eq cs]

theorem collect_cell_text_eq : ∀ c : Cell,
    collect_cell_text c =
      ((cellParagraphs c).map Paragraph.text).filter fun s => !s.isEmpty
  | .mk ps ts => by
    simp only [collect_cell_text, cellParagraphs, List.map_append,
      List.filter_append, paragraphChunks]
    rw [collect_tables_text_eq ts]

theorem collect_tables_text_eq : ∀ ts : List Table,
    collect_tables_text ts =
      ((tablesParagraphs ts).map Paragraph.text).filter fun s => !s.isEmpty
  | [] => rfl
  | t :: ts => by
    simp only [collect_tables_text, tablesParagraphs, List.map_append,
      List.filter_append]
    rw [collect_table_text_eq t, collect_tables_text_eq ts]

end

/-- Counterexample to C6 as stated: a body paragraph with empty plain text
contributes no line at all, so the flattened text differs from the
newline join over every paragraph. -/
theorem collect_document_counterexample :
    collect_document_text
        ⟨[⟨[⟨"a".data, 0⟩]⟩, ⟨[]⟩, ⟨[⟨"b".data, 0⟩]⟩], []⟩ ≠
      collect_document_text_claim
        ⟨[⟨[⟨"a".data, 0⟩]⟩, ⟨[]⟩, ⟨[⟨"b".data, 0⟩]⟩], []⟩ := by
  decide

/-- C6 amended: the flattened text is the newline join of the plain texts
of the document paragraphs in document order (body, then every table
row-major cell by cell, cell paragraphs before nested tables, each
paragraph visited exactly once), restricted to paragraphs whose plain text
is nonempty; empty paragraphs are skipped and produce no blank line. -/
theorem collect_document_text_flattens (doc : Document) :
    collect_document_text doc =
      List.intercalate ['\n']
        (((docParagraphs doc).map Paragraph.text).filter fun s => !s.isEmpty) := by
  unfold collect_document_text docParagraphs
  rw [List.map_append, List.filter_append, collect_tables_text_eq]
  rfl

/-- Python str.replace with an empty pattern: the replacement is inserted
at every position, around every character. -/
def emptyPatReplace (new : List Char) : List Char → List Char
  | [] => new
  | c :: cs => new ++ c :: emptyPatReplace new cs

/-- One scan of Python str.replace for a nonempty pattern: at skip zero a
match emits the replacement once and schedules the remaining matched
characters to be consumed silently; otherwise the character is copied. -/
def replaceSkip (old new : List Char) : Nat → List Char → List Char
  | _, [] => []
  | 0, c :: cs =>
    if old.isPrefixOf (c :: cs) then
      new ++ replaceSkip old new (old.length - 1) cs
    else c :: replaceSkip old new 0 cs
  | k + 1, _ :: cs => replaceSkip old new k cs

/-- Python str.replace(old, new): replaces every non-overlapping
occurrence, scanning left to right. -/
def strReplace (s old new : List Char) : List Char :=
  match old with
  | [] => emptyPatReplace new s
  | o :: os => replaceSkip (o :: os) new 0 s

/-- The function _apply_replacements of scrub.py: fold of literal
substring substitution over the replacement pairs. -/
def apply_replacements (value : List Char)
    (reps : List (List Char × List Char)) : List Char :=
  reps.foldl (fun r p => strReplace r p.1 p.2) value

/-- The warning string recorded by _replace_in_paragraph. -/
def rebuildWarning : List Char :=
  "Absatz musste für vollständige Redaktion neu gesetzt werden.".data

/-- The function _rewrite_paragraph of scrub.py as a pure paragraph
transformer: all runs removed, one default-formatted run added when the
text is nonempty. -/
def rewrite_paragraph (t : List Char) : Paragraph :=
  ⟨if t = [] then [] else [⟨t, 0⟩]⟩

/-- The function _replace_in_paragraph of scrub.py: computes the desired
text, edits runs in place when formatting is preserved, falls back to a
full rewrite plus warning when the edited runs miss the desired text. -/
def replace_in_paragraph (p : Paragraph)
    (reps : List (List Char × List Char)) (preserve : Bool) :
    Paragraph × List (List Char) :=
  let desired := apply_replacements p.text reps
  if preserve then
    let edited : Paragraph :=
      ⟨p.runs.map fun r => ⟨apply_replacements r.text reps, r.fmt⟩⟩
    if edited.text ≠ desired then (rewrite_paragraph desired, [rebuildWarning])
    else (edited, [])
  else (rewrite_paragraph desired, [])

lemma strReplace_nil_of_ne {old new : List Char} (h : old ≠ []) :
    strReplace [] old new = [] := by
  cases old with
  | nil => exact absurd rfl h
  | cons o os => rfl

lemma strReplace_eq_nil {s old new : List Char} (hnew : new ≠ [])
    (h : strReplace s old new = []) : s = [] ∧ old ≠ [] := by
  cases old with
  | nil =>
    cases s with
    | nil => exact absurd h hnew
    | cons c cs =>
      simp only [strReplace, emptyPatReplace] at h
      exact absurd h (by simp)
  | cons o os =>
    cases s with
    | nil => exact ⟨rfl, by simp⟩
    | cons c cs =>
      simp only [strReplace, replaceSkip] at h
      by_cases hp : (o :: os).isPrefixOf (c :: cs)
      · rw [if_pos hp] at h
        exact absurd (List.append_eq_nil.1 h).1 hnew
      · rw [if_neg hp] at h
        exact absurd h (by simp)

lemma apply_replacements_eq_nil {v : List Char}
    {reps : List (List Char × List Char)}
    (hnew : ∀ pr ∈ reps, pr.2 ≠ ([] : List Char))
    (h : apply_replacements v reps = []) :
    v = [] ∧ apply_replacements [] reps = [] := by
  induction reps generalizing v with
  | nil => exact ⟨h, rfl⟩
  | cons pr rest ih =>
    have hrest : ∀ q ∈ rest, q.2 ≠ ([] : List Char) :=
      fun q hq => hnew q (List.mem_cons_of_mem _ hq)
    have h' : apply_replacements (strReplace v pr.1 pr.2) rest = [] := h
    obtain ⟨h1, h2⟩ := ih hrest h'
    obtain ⟨hv, hold⟩ :=
      strReplace_eq_nil (hnew pr (List.mem_cons_self _ _)) h1
    refine ⟨hv, ?_⟩
    show apply_replacements (strReplace [] pr.1 pr.2) rest = []
    rw [strReplace_nil_of_ne hold]
    exact h2

/-- C7: with formatting preservation requested, whenever the concatenation
of the per-run substituted texts misses the desired text, the paragraph is
rebuilt as a single default-formatted run holding the desired text and
exactly one warning is recorded; the function is total, so this is never
an error. -/
theorem paragraph_rebuild_on_mismatch (p : Paragraph)
    (reps : List (List Char × List Char))
    (hnew : ∀ pr ∈ reps, pr.2 ≠ ([] : List Char))
    (hmis : (⟨p.runs.map fun r =>
        ⟨apply_replacements r.text reps, r.fmt⟩⟩ : Paragraph).text ≠
      apply_replacements p.text reps) :
    replace_in_paragraph p reps true =
      (⟨[⟨apply_replacements p.text reps, 0⟩]⟩, [rebuildWarning]) := by
  have hdesired : apply_replacements p.text reps ≠ [] := by
    intro hnil
    obtain ⟨hpt, happ⟩ := apply_replacements_eq_nil hnew hnil
    have hruns : ∀ r ∈ p.runs, r.text = ([] : List Char) := by
      intro r hr
      have := List.flatten_eq_nil_iff.1 hpt
      exact this r.text (List.mem_map_of_mem Run.text hr)
    apply hmis
    rw [hnil]
    show (List.map Run.text (p.runs.map fun r =>
      ⟨apply_replacements r.text reps, r.fmt⟩)).flatten = []
    rw [List.flatten_eq_nil_iff]
    intro l hl
    simp only [List.map_map, List.mem_map, Function.comp] at hl
    obtain ⟨r, hr, rfl⟩ := hl
    rw [hruns r hr]
    exact happ
  simp only [replace_in_paragraph, if_pos hmis, if_true]
  rw [rewrite_paragraph, if_neg hdesired]

/-- Witness for C7: a name split across two differently formatted runs
forces the rebuild with a single run and one warning. -/
theorem paragraph_rebuild_on_mismatch_witness :
    replace_in_paragraph ⟨[⟨"Kai ".data, 1⟩, ⟨"Muster".data, 2⟩]⟩
        [("Kai Muster".data, "<PER_1>".data)] true =
      (⟨[⟨apply_replacements
          (Paragraph.text ⟨[⟨"Kai ".data, 1⟩, ⟨"Muster".data, 2⟩]⟩)
          [("Kai Muster".data, "<PER_1>".data)], 0⟩]⟩, [rebuildWarning]) :=
  paragraph_rebuild_on_mismatch _ _ (by decide) (by decide)

/-- The function _replace_in_paragraph_sequence of scrub.py, also
returning the transformed paragraphs. -/
def replace_in_paragraph_sequence (ps : List Paragraph)
    (reps : List (List Char × List Char)) (preserve : Bool) :
    List Paragraph × List (List Char) :=
  match ps with
  | [] => ([], [])
  | p :: rest =>
    let pr := replace_in_paragraph p reps preserve
    let rr := replace_in_paragraph_sequence rest reps preserve
    (pr.1 :: rr.1, pr.2 ++ rr.2)

mutual

/-- The function _replace_in_table of scrub.py. -/
def replace_in_table (reps : List (List Char × List Char)) (preserve : Bool) :
    Table → Table × List (List Char)
  | .mk rows =>
    let rr := replace_in_rows reps preserve rows
    (.mk rr.1, rr.2)

def replace_in_rows (reps : List (List Char × List Char)) (preserve : Bool) :
    List Row → List Row × List (List Char)
  | [] => ([], [])
  | r :: rs =>
    let a := replace_in_row reps preserve r
    let b := replace_in_rows reps preserve rs
    (a.1 :: b.1, a.2 ++ b.2)

def replace_in_row (reps : List (List Char × List Char)) (preserve : Bool) :
    Row → Row × List (List Char)
  | .mk cells =>
    let cr := replace_in_cells reps preserve cells
    (.mk cr.1, cr.2)

def replace_in_cells (reps : List (List Char × List Char)) (preserve : Bool) :
    List Cell → List Cell × List (List Char)
  | [] => ([], [])
  | c :: cs =>
    let a := replace_in_cell reps preserve c
    let b := replace_in_cells reps preserve cs
    (a.1 :: b.1, a.2 ++ b.2)

def replace_in_cell (reps : List (List Char × List Char)) (preserve : Bool) :
    Cell → Cell × List (List Char)
  | .mk ps ts =>
    let pr := replace_in_paragraph_sequence ps reps preserve
    let tr := replace_in_tables reps preserve ts
    (.mk pr.1 tr.1, pr.2 ++ tr.2)

def replace_in_tables (reps : List (List Char × List Char)) (preserve : Bool) :
    List Table → List Table × List (List Char)
  | [] => ([], [])
  | t :: ts =>
    let a := replace_in_table reps preserve t
    let b := replace_in_tables reps preserve ts
    (a.1 :: b.1, a.2 ++ b.2)

end

/-- Descending length order on the raw texts, the sort key of
_apply_replacements_to_document. -/
def repLenGe (a b : List Char × List Char) : Prop := b.1.length ≤ a.1.length

instance : DecidableRel repLenGe := fun _ _ => Nat.decLe _ _

/-- sorted(replacements, key=len, reverse=True) of scrub.py: a stable
descending sort on raw text length. -/
def sortReplacements (reps : List (List Char × List Char)) :
    List (List Char × List Char) :=
  reps.insertionSort repLenGe

/-- The function _apply_replacements_to_document of scrub.py, also
returning the transformed document. -/
def apply_replacements_to_document (doc : Document)
    (reps : List (List Char × List Char)) (preserve : Bool) :
    Document × List (List Char) :=
  let ordered := sortReplacements reps
  let pr := replace_in_paragraph_sequence doc.paragraphs ordered preserve
  let tr := replace_in_tables ordered preserve doc.tables
  (⟨pr.1, tr.1⟩, pr.2 ++ tr.2)

/-- Run-local substitution keeping the formatting metadata. -/
def mapRun (reps : List (List Char × List Char)) (r : Run) : Run :=
  ⟨apply_replacements r.text reps, r.fmt⟩

/-- Paragraph with every run substituted run-locally, structure kept. -/
def mapParagraph (reps : List (List Char × List Char)) (p : Paragraph) :
    Paragraph :=
  ⟨p.runs.map (mapRun reps)⟩

mutual

def mapTable (reps : List (List Char × List Char)) : Table → Table
  | .mk rows => .mk (mapRows reps rows)

def mapRows (reps : List (List Char × List Char)) : List Row → List Row
  | [] => []
  | r :: rs => mapRow reps r :: mapRows reps rs

def mapRow (reps : List (List Char × List Char)) : Row → Row
  | .mk cells => .mk (mapCells reps cells)

def mapCells (reps : List (List Char × List Char)) : List Cell → List Cell
  | [] => []
  | c :: cs => mapCell reps c :: mapCells reps cs

def mapCell (reps : List (List Char × List Char)) : Cell → Cell
  | .mk ps ts => .mk (ps.map (mapParagraph reps)) (mapTables reps ts)

def mapTables (reps : List (List Char × List Char)) : List Table → List Table
  | [] => []
  | t :: ts => mapTable reps t :: mapTables reps ts

end

/-- The document with every run substituted run-locally and every piece of
structure and formatting metadata kept unchanged. -/
def mapDocument (reps : List (List Char × List Char)) (doc : Document) :
    Document :=
  ⟨doc.paragraphs.map (mapParagraph reps), mapTables reps doc.tables⟩

lemma replace_in_paragraph_frame (p : Paragraph)
    (reps : List (List Char × List Char))
    (h : (mapParagraph reps p).text = apply_replacements p.text reps) :
    replace_in_paragraph p reps true = (mapParagraph reps p, []) := by
  have hcond : ¬ ((⟨p.runs.map fun r =>
      ⟨apply_replacements r.text reps, r.fmt⟩⟩ : Paragraph).text ≠
        apply_replacements p.text reps) := by
    rw [not_ne_iff]
    exact h
  simp only [replace_in_paragraph]
  rw [if_pos trivial, if_neg hcond]
  rfl

lemma replace_in_paragraph_sequence_frame (ps : List Paragraph)
    (reps : List (List Char × List Char))
    (h : ∀ p ∈ ps, (mapParagraph reps p).text = apply_replacements p.text reps) :
    replace_in_paragraph_sequence ps reps true =
      (ps.map (mapParagraph reps), []) := by
  induction ps with
  | nil => rfl
  | cons p rest ih =>
    simp only [replace_in_paragraph_sequence]
    rw [replace_in_paragraph_frame p reps (h p (List.mem_cons_self _ _)),
      ih (fun q hq => h q (List.mem_cons_of_mem _ hq))]
    simp

mutual

theorem replace_in_table_frame (reps : List (List Char × List Char)) :
    ∀ t : Table,
      (∀ p ∈ tableParagraphs t,
        (mapParagraph reps p).text = apply_replacements p.text reps) →
      replace_in_table reps true t = (mapTable reps t, [])
  | .mk rows, h => by
    simp only [replace_in_table, mapTable]
    rw [replace_in_rows_frame reps rows h]

theorem replace_in_rows_frame (reps : List (List Char × List Char)) :
    ∀ rs : List Row,
      (∀ p ∈ rowsParagraphs rs,
        (mapParagraph reps p).text = apply_replacements p.text reps) →
      replace_in_rows reps true rs = (mapRows reps rs, [])
  | [], _ => rfl
  | r :: rs, h => by
    simp only [replace_in_rows, mapRows]
    rw [replace_in_row_frame reps r
        (fun p hp => h p (List.mem_append.2 (Or.inl hp))),
      replace_in_rows_frame reps rs
        (fun p hp => h p (List.mem_append.2 (Or.inr hp)))]
    simp

theorem replace_in_row_frame (reps : List (List Char × List Char)) :
    ∀ r : Row,
      (∀ p ∈ rowParagraphs r,
        (mapParagraph reps p).text = apply_replacements p.text reps) →
      replace_in_row reps true r = (mapRow reps r, [])
  | .mk cells, h => by
    simp only [replace_in_row, mapRow]
    rw [replace_in_cells_frame reps cells h]

theorem replace_in_cells_frame (reps : List (List Char × List Char)) :
    ∀ cs : List Cell,
      (∀ p ∈ cellsParagraphs cs,
        (mapParagraph reps p).text = apply_replacements p.text reps) →
      replace_in_cells reps true cs = (mapCells reps cs, [])
  | [], _ => rfl
  | c :: cs, h => by
    simp only [replace_in_cells, mapCells]
    rw [replace_in_cell_frame reps c
        (fun p hp => h p (List.mem_append.2 (Or.inl hp))),
      replace_in_cells_frame reps cs
        (fun p hp => h p (List.mem_append.2 (Or.inr hp)))]
    simp

theorem replace_in_cell_frame (reps : List (List Char × List Char)) :
    ∀ c : Cell,
      (∀ p ∈ cellParagraphs c,
        (mapParagraph reps p).text = apply_replacements p.text reps) →
      replace_in_cell reps true c = (mapCell reps c, [])
  | .mk ps ts, h => by
    simp only [replace_in_cell, mapCell]
    rw [replace_in_paragraph_sequence_frame ps reps
        (fun p hp => h p (List.mem_append.2 (Or.inl hp))),
      replace_in_tables_frame reps ts
        (fun p hp => h p (List.mem_append.2 (Or.inr hp)))]
    simp

theorem replace_in_tables_frame (reps : List (List Char × List Char)) :
    ∀ ts : List Table,
      (∀ p ∈ tablesParagraphs ts,
        (mapParagraph reps p).text = apply_replacements p.text reps) →
      replace_in_tables reps true ts = (mapTables reps ts, [])
  | [], _ => rfl
  | t :: ts, h => by
    simp only [replace_in_tables, mapTables]
    rw [replace_in_table_frame reps t
        (fun p hp => h p (List.mem_append.2 (Or.inl hp))),
      replace_in_tables_frame reps ts
        (fun p hp => h p (List.mem_append.2 (Or.inr hp)))]
    simp

end

/-- C8: when on every paragraph the run-local substitutions compose to the
whole-paragraph substitution (no applied raw text crosses a run boundary),
redacting with formatting preservation yields zero warnings and the
document keeps its entire structure and formatting metadata, every run
keeping its fmt and position, with only the run texts substituted. -/
theorem preserve_formatting_frame (doc : Document)
    (reps : List (List Char × List Char))
    (h : ∀ p ∈ docParagraphs doc,
      (mapParagraph (sortReplacements reps) p).text =
        apply_replacements p.text (sortReplacements reps)) :
    apply_replacements_to_document doc reps true =
      (mapDocument (sortReplacements reps) doc, []) := by
  simp only [apply_replacements_to_document, mapDocument]
  rw [replace_in_paragraph_sequence_frame doc.paragraphs (sortReplacements reps)
      (fun p hp => h p (List.mem_append.2 (Or.inl hp))),
    replace_in_tables_frame (sortReplacements reps) doc.tables
      (fun p hp => h p (List.mem_append.2 (Or.inr hp)))]
  rfl

/-- Witness for C8 at a document with a nested table and aligned runs. -/
theorem preserve_formatting_frame_witness :
    apply_replacements_to_document
        ⟨[⟨[⟨"Tel: ".data, 1⟩, ⟨"a@b.cc".data, 2⟩]⟩],
          [Table.mk [Row.mk [Cell.mk [⟨[⟨"a@b.cc".data, 3⟩]⟩]
            [Table.mk [Row.mk [Cell.mk [⟨[⟨"Ort".data, 4⟩]⟩] []]]]]]]⟩
        [("a@b.cc".data, "<EMAIL_1>".data)] true =
      (mapDocument
        (sortReplacements [("a@b.cc".data, "<EMAIL_1>".data)])
        ⟨[⟨[⟨"Tel: ".data, 1⟩, ⟨"a@b.cc".data, 2⟩]⟩],
          [Table.mk [Row.mk [Cell.mk [⟨[⟨"a@b.cc".data, 3⟩]⟩]
            [Table.mk [Row.mk [Cell.mk [⟨[⟨"Ort".data, 4⟩]⟩] []]]]]]]⟩, []) :=
  preserve_formatting_frame _ _ (by decide)

/-- Request mode of the /scrub endpoint in scrub.py. -/
inductive ScrubMode where
  | text
  | docx
deriving DecidableEq, Repr

/-- Outcome of the /scrub endpoint as far as the text mode is concerned:
either an HTTP client error with its status code, a text response, or the
hand-off to the docx handling. -/
inductive ScrubOutcome where
  | badRequest (code : Nat)
  | textOk (cleanText : List Char)
  | docxPath
deriving DecidableEq, Repr

/-- Python truthiness test (if not item.text) on an optional string: an
absent field and the empty string are both falsy. -/
def pyFalsyText : Option (List Char) → Bool
  | none => true
  | some t => t.isEmpty

/-- The mode=text branch of the scrub_text endpoint of scrub.py lines
39-43: field validation, then the core redactor. -/
def scrub_endpoint (mode : ScrubMode) (textField : Option (List Char))
    (emails : List (Nat × Nat)) (ents : List (Nat × Nat × String)) :
    ScrubOutcome :=
  match mode with
  | .text =>
    if pyFalsyText textField then .badRequest 400
    else .textOk (scrub_text (textField.getD []) emails ents).1
  | .docx => .docxPath

/-- C10: a mode=text request with an empty text field is rejected with
HTTP 400 exactly like an absent field, even though the core flat-text
redactor maps the empty string (on which both detectors return nothing) to
the empty clean text with no replacements, without error. -/
theorem empty_text_rejected (emails : List (Nat × Nat))
    (ents : List (Nat × Nat × String)) :
    scrub_endpoint .text (some []) emails ents = .badRequest 400 ∧
      scrub_endpoint .text none emails ents = .badRequest 400 ∧
      scrub_endpoint .text (some []) emails ents =
        scrub_endpoint .text none emails ents ∧
      scrub_text [] [] [] = ([], []) :=
  ⟨rfl, rfl, rfl, by decide⟩
